import Mathlib

/-!
Verification of the state-estimation core (dynamics model + particle filter)
of this repository: a shallow embedding of `pypose/module/dynamics.py` and
`pypose/module/pf.py`, with theorems settling the frozen claims.

Tensors of real numbers are embedded as functions over `Fin` into `ℚ`
(exact arithmetic); Python exceptions are embedded as `Except PyErr`.
-/

/-- Python exceptions that the embedded code can raise. -/
inductive PyErr where
  | attributeError
  | typeError
  | notImplementedError
  | assertionError
  | indexError
deriving DecidableEq, Repr

/-- A row vector of length `n` (one tensor row). -/
abbrev Vec (n : ℕ) : Type := Fin n → ℚ

/-- A rank-2 tensor with `r` rows and `c` columns. -/
abbrev Mat (r c : ℕ) : Type := Fin r → Fin c → ℚ

/-- Embedding of `x.matmul(M.mT)` for a batch `x` of row vectors and a matrix `M`
(the row-vector convention used throughout `dynamics.py`):
entry `(i, j)` is the dot product of row `i` of `x` with row `j` of `M`. -/
def matmulT (x : Mat m n) (M : Mat p n) : Mat m p :=
  fun i j => ∑ k, x i k * M j k

/-- The `n × n` identity matrix (`torch.eye(n)`). -/
def eye (n : ℕ) : Mat n n :=
  fun i j => if i = j then 1 else 0

/-- The all-zero `r × c` matrix (`torch.zeros(r, c)`). -/
def zeros (r c : ℕ) : Mat r c :=
  fun _ _ => 0

/-- Adding a bias attribute to a tensor, as Python evaluates `z + self.c1`:
when the stored bias is an actual tensor it is broadcast over the rows and
added; when it is `None` (the default left by `LTI.__init__`), the addition
`Tensor + None` raises a `TypeError`. -/
def addBias (Z : Mat m p) : Option (Vec p) → Except PyErr (Mat m p)
  | some c => .ok (fun i j => Z i j + c j)
  | none => .error .typeError

namespace LTI

/-- The entry assertions of `LTI.forward` (dynamics.py lines 354-357) as a
function of the ranks (`ndim`) of the system matrices, of `x` and of `u`:
`if self.A.ndim >= 3: assert self.A.ndim == x.ndim == u.ndim
 else: assert self.A.ndim == 2`.
Returns `true` exactly when no `AssertionError` is raised. -/
def checkDims (andim xndim undim : ℕ) : Bool :=
  if 3 ≤ andim then decide (andim = xndim) && decide (xndim = undim)
  else decide (andim = 2)

/-- Embedding of `LTI.forward` (dynamics.py lines 354-362) in the unbatched case: the
system matrices are rank-2, `x` and `u` are batches of `m` row vectors
(rank-2 tensors), and the stored biases `_c1`, `_c2` are either tensors or
the `None` left by `LTI.__init__` when no bias argument was given.
Computes `z = x.matmul(A.mT) + u.matmul(B.mT) + c1` and then
`y = x.matmul(C.mT) + u.matmul(D.mT) + c2`, raising `TypeError` at the
bias addition when the bias is `None`. -/
def forward (A : Mat n n) (B : Mat n q) (C : Mat p n) (D : Mat p q)
    (c1 : Option (Vec n)) (c2 : Option (Vec p))
    (x : Mat m n) (u : Mat m q) : Except PyErr (Mat m n × Mat m p) :=
  if checkDims 2 2 2 then do
    let z ← addBias (matmulT x A + matmulT u B) c1
    let y ← addBias (matmulT x C + matmulT u D) c2
    return (z, y)
  else .error .assertionError

end LTI

/-- The mutable attributes carried by a time-varying `_System` instance
(dynamics.py lines 51-61): the linearization state and input, the step
counter buffer `t`, and the Jacobian configuration `jacargs`
(vectorize=True, strategy=reverse-mode). -/
structure SysAttrs (V : Type) where
  state : V
  input : V
  t : ℤ
  jacargs : Bool × String
deriving DecidableEq

/-- Embedding of `_System.set_linearization_point` (dynamics.py line 133):
`self.state, self.input = state, input`. -/
def set_linearization_point (s : SysAttrs V) (state input : V) : SysAttrs V :=
  { s with state := state, input := input }

/-- Embedding of `_System.forward_hook` (dynamics.py lines 58-60), fired after every
`forward` call of a time-varying system with `inputs` the positional
argument tuple `(state, input)`:
`self.input, self.state = inputs; self.t.add_(1)`. -/
def forward_hook (s : SysAttrs V) (inputs : V × V) : SysAttrs V :=
  { s with input := inputs.1, state := inputs.2, t := s.t + 1 }

/-- The base implementation `_System.state_transition` (dynamics.py line 97):
unconditionally `raise NotImplementedError(...)`. It produces no value
(result type `Empty`) and returns the attributes unchanged. -/
def state_transition_base (s : SysAttrs V) (_state _input : W) :
    Except PyErr Empty × SysAttrs V :=
  (.error .notImplementedError, s)

/-- The base implementation `_System.observation` (dynamics.py line 113):
unconditionally `raise NotImplementedError(...)`. -/
def observation_base (s : SysAttrs V) (_state _input : W) :
    Except PyErr Empty × SysAttrs V :=
  (.error .notImplementedError, s)

/-- The attribute names an instance of the `_System` class of this repository
exposes: the methods and properties of the class body of `dynamics.py`
lines 51-233 plus the instance attributes assigned in `__init__`. The
`torch.nn.Module` base class defines no `set_refpoint` attribute either,
so Python attribute lookup on a `_System` succeeds exactly for (its own
inherited-from-Module machinery and) these names. -/
def system_attr_names : List String :=
  ["jacargs", "t", "forward_hook", "forward", "state_transition",
   "observation", "reset", "set_linearization_point",
   "A", "B", "C", "D", "c1", "c2"]

/-- Python attribute lookup `getattr(model, name)` on a `_System` instance,
restricted to the names this repository defines: a name outside
`system_attr_names` raises `AttributeError`. -/
def getattr_system (name : String) : Except PyErr Unit :=
  if name ∈ system_attr_names then .ok () else .error .attributeError

/-- The attribute name `PF.forward` uses for its very first model call
(pf.py line 119): `self.model.set_refpoint(state=x, input=u, t=t)`. -/
def pf_refpoint_method : String := "set_refpoint"

/-- Embedding of `x.matmul(M.mT)` for a single row vector `x` (row-vector convention of
the `c1`/`c2` properties in dynamics.py lines 217 and 233). -/
def rowMul (x : Vec c) (M : Mat r c) : Vec r :=
  fun i => ∑ k, x k * M i k

/-- A `_System` with concrete `state_transition`/`observation` overrides
`f`/`g`, a reference point `(state, input)` recorded by
`set_linearization_point`, and the values returned by the lazy accessors
`A`, `B`, `C`, `D` (for a generic model these are autograd Jacobians of
`f` and `g` at the reference point; the bias identities below hold for
whatever matrices the accessors return). -/
structure NLSystem (n m p : ℕ) where
  f : Vec n → Vec m → Vec n
  g : Vec n → Vec m → Vec p
  state : Vec n
  input : Vec m
  A : Mat n n
  B : Mat n m
  C : Mat p n
  D : Mat p m

namespace NLSystem

/-- Embedding of `_System.c1` (dynamics.py line 217), the lazily computed bias:
`self.state_transition(self.state, self.input)
 - (self.state).matmul(self.A.mT) - (self.input).matmul(self.B.mT)`. -/
def c1 (s : NLSystem n m p) : Vec n :=
  s.f s.state s.input - rowMul s.state s.A - rowMul s.input s.B

/-- Embedding of `_System.c2` (dynamics.py line 233), the lazily computed bias:
`self.observation(self.state, self.input)
 - (self.state).matmul(self.C.mT) - (self.input).matmul(self.D.mT)`. -/
def c2 (s : NLSystem n m p) : Vec p :=
  s.g s.state s.input - rowMul s.state s.C - rowMul s.input s.D

end NLSystem

namespace PF

/-- Embedding of `PF.compute_cov` (pf.py lines 180-183) for the shapes `PF.forward` uses:
`a`, `b` are `(N, n)` tensors, `w` the scalar weight tensor, `Q` the added
covariance. `a.unsqueeze(-1) @ b.unsqueeze(-1).mT` forms the per-particle
outer products `(N, n, n)`, `w` broadcasts over them, and `.sum(dim=-3)`
sums out the particle dimension:
`Q + (w.unsqueeze(-1) * a @ b.mT).sum(dim=-3)`. -/
def compute_cov (a b : Fin N → Vec n) (w : ℚ) (Q : Mat n n) : Mat n n :=
  fun j k => Q j k + ∑ i, w * (a i j * b i k)

/-- Embedding of `xr.mean(dim=0)` over a set of `N` particles (pf.py line 125). -/
def particle_mean (xr : Fin N → Vec n) : Vec n :=
  fun j => (∑ i, xr i j) / (N : ℚ)

/-- The posterior-covariance computation of one `PF.forward` step
(pf.py lines 125-128), as a function of the resampled particles `xr` and
the process-noise covariance `Q`:
`x = xr.mean(dim=0); ex = xr - x;
 weight = torch.tensor([1 / self.particle_number]);
 P = self.compute_cov(ex, ex, weight, Q)`. -/
def step_cov (xr : Fin N → Vec n) (Q : Mat n n) : Mat n n :=
  compute_cov (fun i => xr i - particle_mean xr)
    (fun i => xr i - particle_mean xr) (1 / (N : ℚ)) Q

/-- A covariance matrix that is symmetric and positive semi-definite
(quadratic form nonnegative on every vector). -/
def IsSymmPSD (M : Mat n n) : Prop :=
  (∀ j k, M j k = M k j) ∧ ∀ v : Vec n, 0 ≤ ∑ j, ∑ k, v j * M j k * v k

/-- Modelled from the spec: the posterior-covariance formula
`(1/N)·Σ(particle_i − mean)(particle_i − mean)ᵗ` added to `Q`
(spec-side comparator definition, written from the words of the spec). -/
def spec_posterior_cov (xr : Fin N → Vec n) (Q : Mat n n) : Mat n n :=
  fun j k => Q j k +
    (1 / (N : ℚ)) * ∑ i, (xr i j - particle_mean xr j) *
      (xr i k - particle_mean xr k)

/-- Embedding of `torch.cumsum(q, dim=0)` (pf.py line 167): the list of partial sums. -/
def cumsum : List ℚ → List ℚ
  | [] => []
  | a :: t => a :: (cumsum t).map (fun s => a + s)

/-- Embedding of `cumsumq[-1] = 1.0` (pf.py line 168): overwrite the last entry. -/
def setLast : List ℚ → ℚ → List ℚ
  | [], _ => []
  | [_], v => [v]
  | a :: b :: t, v => a :: setLast (b :: t) v

/-- Embedding of `torch.searchsorted(cs, v)` with the default left side (pf.py
line 169): the left insertion point of `v` into the sorted sequence `cs`,
i.e. the number of entries strictly below `v`. -/
def searchsorted (cs : List ℚ) (v : ℚ) : ℕ :=
  cs.countP (fun c => decide (c < v))

/-- Tensor fancy indexing `x[indices]` along the particle dimension: one
output row per index, raising `IndexError` (embedded as `none`) when any
index is out of bounds. -/
def index_select (x : List X) : List ℕ → Option (List X)
  | [] => some []
  | i :: t =>
    match x.get? i, index_select x t with
    | some a, some res => some (a :: res)
    | _, _ => none

/-- The clamped cumulative weight vector of `PF.resample_particles`
(pf.py lines 167-168):
`cumsumq = torch.cumsum(q, dim=0); cumsumq[-1] = 1.0`. -/
def cumsum1 (q : List ℚ) : List ℚ :=
  setLast (cumsum q) 1

/-- Embedding of `PF.resample_particles` (pf.py lines 162-169) with the uniform draws
`r = torch.rand(particle_number)` made explicit:
`cumsumq = torch.cumsum(q, dim=0); cumsumq[-1] = 1.0;
 return x[torch.searchsorted(cumsumq, r)]`. -/
def resample_particles (q : List ℚ) (x : List X) (r : List ℚ) :
    Option (List X) :=
  index_select x (r.map (searchsorted (cumsum1 q)))

end PF

/-! ## Theorems settling the claims -/

/-- C1: the first model action of `PF.forward` is the call
`self.model.set_refpoint(state=x, input=u, t=t)`, but on this repository
`_System` (and on every subclass that does not add the attribute) the
lookup of `set_refpoint` raises `AttributeError`: the reference-point
recorder `_System` actually exposes is named `set_linearization_point`,
which records the state and input arguments. The claim that the call
succeeds on a `_System` is contradicted by the code. -/
theorem pf_refpoint_call_fails_on_system :
    getattr_system pf_refpoint_method = .error .attributeError ∧
    "set_linearization_point" ∈ system_attr_names ∧
    ∀ (V : Type) (s : SysAttrs V) (x u : V),
      (set_linearization_point s x u).state = x ∧
      (set_linearization_point s x u).input = u := by
  have hnot : pf_refpoint_method ∉ system_attr_names := by decide
  refine ⟨by simp [getattr_system, hnot], by decide, ?_⟩
  intro V s x u
  exact ⟨rfl, rfl⟩

/-- C2: an `LTI` constructed without bias arguments stores `None` for both
biases (`LTI.__init__` line 254), and `forward` then raises `TypeError` at
the addition `x.matmul(A.mT) + u.matmul(B.mT) + self.c1` instead of
behaving as if zero biases had been supplied — for every choice of
matrices and every `x`, `u` of admissible rank. -/
theorem lti_default_bias_forward_raises (n p q2 m : ℕ)
    (A : Mat n n) (B : Mat n q2) (C : Mat p n) (D : Mat p q2)
    (x : Mat m n) (u : Mat m q2) :
    LTI.forward A B C D none none x u = .error .typeError := rfl

/-- C6: at the reference point the affine approximation is exact, because
`c1` and `c2` are defined as the residuals of the state-transition and
observation maps: `f(x*,u*) = x*·Aᵀ + u*·Bᵀ + c1` and
`g(x*,u*) = x*·Cᵀ + u*·Dᵀ + c2` for every system and whatever matrices
the lazy accessors `A`, `B`, `C`, `D` return. -/
theorem linearization_exact_at_refpoint (n m p : ℕ) (s : NLSystem n m p) :
    s.f s.state s.input = rowMul s.state s.A + rowMul s.input s.B + s.c1 ∧
    s.g s.state s.input = rowMul s.state s.C + rowMul s.input s.D + s.c2 := by
  constructor <;>
    · funext j
      simp only [NLSystem.c1, NLSystem.c2, Pi.add_apply, Pi.sub_apply]
      ring

/-- C7 counterexample: with unbatched (rank-2) system matrices, the entry
check of `LTI.forward` passes for `x` and `u` of rank 3 — no
`AssertionError` is raised, refuting "when the matrices are unbatched,
forward requires exactly rank 2" for `x` and `u`. -/
theorem unbatched_check_accepts_rank3_xu :
    LTI.checkDims 2 3 3 = true := by decide

/-- C7 (amended): the entry check of `LTI.forward` passes exactly when
either the matrices are batched (rank ≥ 3) and `x` and `u` share their
rank, or the matrices are unbatched and their rank is exactly 2 — in the
unbatched branch the ranks of `x` and `u` are not constrained at all. In
particular a rank-3 `A` with a rank-2 `x` raises before any numeric
computation. -/
theorem forward_dim_check_characterization (a x u : ℕ) :
    LTI.checkDims a x u = true ↔
      (3 ≤ a ∧ x = a ∧ u = a) ∨ (a < 3 ∧ a = 2) := by
  by_cases h : 3 ≤ a <;> simp [LTI.checkDims, h] <;> omega

/-- C8: for the `LTI` model with `A = I₂`, `B = 0`, `C = I₂`, `D = 0` and
zero biases, `forward(x, u)` returns `(x, x)` for every batch of rank-2
states `x` and inputs `u`. -/
theorem lti_identity_forward (m q2 : ℕ) (x : Mat m 2) (u : Mat m q2) :
    LTI.forward (eye 2) (zeros 2 q2) (eye 2) (zeros 2 q2)
      (some 0) (some 0) x u = .ok (x, x) := by
  have hx : matmulT x (eye 2) = x := by
    funext i j
    simp [matmulT, eye, mul_ite, Finset.sum_ite_eq]
  have hu : matmulT u (zeros 2 q2) = zeros m 2 := by
    funext i j
    simp [matmulT, zeros]
  simp only [LTI.forward, LTI.checkDims, addBias, hx, hu]
  norm_num
  have hz : (fun i j => x i j + zeros m 2 i j) = x := by
    funext i j
    simp [zeros]
  rw [hz]
  rfl

/-- C9: the base-class `state_transition` and `observation` of `_System`
fail immediately with `NotImplementedError`, return no value (the value
type is uninhabited), and leave every model attribute unchanged. -/
theorem base_maps_raise_not_implemented (V W : Type)
    (s : SysAttrs V) (st inp : W) :
    state_transition_base s st inp = (.error .notImplementedError, s) ∧
    observation_base s st inp = (.error .notImplementedError, s) :=
  ⟨rfl, rfl⟩

/-- C10: the forward hook of a time-varying `_System` records the
positional arguments of `forward(state, input)` with the roles swapped —
the state argument lands in the `input` attribute and the input argument
in the `state` attribute — increments the step counter `t` by exactly 1,
and changes no other attribute (`jacargs` is preserved). -/
theorem forward_hook_swaps_and_increments (V : Type)
    (s : SysAttrs V) (a b : V) :
    (forward_hook s (a, b)).input = a ∧
    (forward_hook s (a, b)).state = b ∧
    (forward_hook s (a, b)).t = s.t + 1 ∧
    (forward_hook s (a, b)).jacargs = s.jacargs :=
  ⟨rfl, rfl, rfl, rfl⟩

/-- Helper: the quadratic form of a weighted sum of outer products is the
weighted sum of the squared inner products. -/
theorem quadform_outer_sum (N n : ℕ) (w : ℚ) (e : Fin N → Vec n)
    (v : Vec n) :
    ∑ j, ∑ k, v j * (∑ i, w * (e i j * e i k)) * v k
      = ∑ i, w * ((∑ j, v j * e i j) * (∑ k, v k * e i k)) := by
  have h1 : ∀ j k : Fin n, v j * (∑ i, w * (e i j * e i k)) * v k
      = ∑ i, w * ((v j * e i j) * (v k * e i k)) := by
    intro j k
    rw [Finset.mul_sum, Finset.sum_mul]
    refine Finset.sum_congr rfl fun i _ => by ring
  calc ∑ j, ∑ k, v j * (∑ i, w * (e i j * e i k)) * v k
      = ∑ j, ∑ k, ∑ i, w * ((v j * e i j) * (v k * e i k)) :=
        Finset.sum_congr rfl fun j _ => Finset.sum_congr rfl fun k _ => h1 j k
    _ = ∑ j, ∑ i, ∑ k, w * ((v j * e i j) * (v k * e i k)) :=
        Finset.sum_congr rfl fun j _ => Finset.sum_comm
    _ = ∑ i, ∑ j, ∑ k, w * ((v j * e i j) * (v k * e i k)) :=
        Finset.sum_comm
    _ = ∑ i, w * ((∑ j, v j * e i j) * (∑ k, v k * e i k)) := by
        refine Finset.sum_congr rfl fun i _ => ?_
        rw [Finset.sum_mul_sum, Finset.mul_sum]
        refine Finset.sum_congr rfl fun j _ => ?_
        rw [Finset.mul_sum]

/-- C4: the posterior covariance returned by a `PF.forward` step is
symmetric positive semi-definite whenever the process-noise covariance `Q`
added to it is: it is `Q` plus a nonnegatively-weighted sum of outer
products of real vectors with themselves. -/
theorem step_cov_symm_psd (N n : ℕ) (xr : Fin N → Vec n) (Q : Mat n n)
    (hQ : PF.IsSymmPSD Q) : PF.IsSymmPSD (PF.step_cov xr Q) := by
  obtain ⟨hsym, hpsd⟩ := hQ
  constructor
  · intro j k
    simp only [PF.step_cov, PF.compute_cov, Pi.sub_apply]
    rw [hsym j k]
    congr 1
    refine Finset.sum_congr rfl fun i _ => by ring
  · intro v
    have expand : ∑ j, ∑ k, v j * PF.step_cov xr Q j k * v k
        = (∑ j, ∑ k, v j * Q j k * v k)
          + ∑ i, (1 / (N : ℚ)) *
            ((∑ j, v j * (xr i j - PF.particle_mean xr j)) *
             (∑ k, v k * (xr i k - PF.particle_mean xr k))) := by
      have h2 : ∀ j k : Fin n, v j * PF.step_cov xr Q j k * v k
          = v j * Q j k * v k
            + v j * (∑ i, (1 / (N : ℚ)) *
                ((xr i j - PF.particle_mean xr j) *
                 (xr i k - PF.particle_mean xr k))) * v k := by
        intro j k
        simp only [PF.step_cov, PF.compute_cov, Pi.sub_apply]
        ring
      calc ∑ j, ∑ k, v j * PF.step_cov xr Q j k * v k
          = ∑ j, ∑ k, (v j * Q j k * v k
              + v j * (∑ i, (1 / (N : ℚ)) *
                  ((xr i j - PF.particle_mean xr j) *
                   (xr i k - PF.particle_mean xr k))) * v k) :=
            Finset.sum_congr rfl fun j _ =>
              Finset.sum_congr rfl fun k _ => h2 j k
        _ = (∑ j, ∑ k, v j * Q j k * v k)
              + ∑ j, ∑ k, v j * (∑ i, (1 / (N : ℚ)) *
                  ((xr i j - PF.particle_mean xr j) *
                   (xr i k - PF.particle_mean xr k))) * v k := by
            simp [Finset.sum_add_distrib]
        _ = (∑ j, ∑ k, v j * Q j k * v k)
              + ∑ i, (1 / (N : ℚ)) *
                ((∑ j, v j * (xr i j - PF.particle_mean xr j)) *
                 (∑ k, v k * (xr i k - PF.particle_mean xr k))) := by
            rw [quadform_outer_sum N n (1 / (N : ℚ))
              (fun i j => xr i j - PF.particle_mean xr j) v]
    rw [expand]
    refine add_nonneg (hpsd v) (Finset.sum_nonneg fun i _ => ?_)
    refine mul_nonneg (by positivity) (mul_self_nonneg _)

/-- Witness for C4 at a concrete input: one particle of dimension one with
value 3 and zero process noise. -/
theorem step_cov_symm_psd_witness :
    PF.IsSymmPSD
      (PF.step_cov (fun (_ : Fin 1) (_ : Fin 1) => (3 : ℚ))
        (fun (_ : Fin 1) (_ : Fin 1) => (0 : ℚ))) :=
  step_cov_symm_psd 1 1 _ _ ⟨fun _ _ => rfl, fun v => by simp⟩

/-- Helper: `cumsum` preserves the length. -/
theorem cumsum_length (l : List ℚ) : (PF.cumsum l).length = l.length := by
  induction l with
  | nil => rfl
  | cons a t ih => simp [PF.cumsum, ih]

/-- Helper: `setLast` preserves the length. -/
theorem setLast_length : ∀ (l : List ℚ) (v : ℚ),
    (PF.setLast l v).length = l.length
  | [], _ => rfl
  | [_], _ => rfl
  | _ :: b :: t, v => by simp [PF.setLast, setLast_length (b :: t) v]

/-- Helper: the last entry of the cumulative sum is the total sum. -/
theorem cumsum_getLast (a : ℚ) (t : List ℚ) :
    (PF.cumsum (a :: t)).getLast? = some (a + t.sum) := by
  induction t generalizing a with
  | nil => simp [PF.cumsum]
  | cons b t2 ih =>
    show (a :: (PF.cumsum (b :: t2)).map (fun s => a + s)).getLast? = _
    have h1 : PF.cumsum (b :: t2)
        = b :: (PF.cumsum t2).map (fun s => b + s) := rfl
    rw [h1, List.map_cons, List.getLast?_cons_cons, ← List.map_cons, ← h1,
      List.getLast?_map, ih b]
    simp [add_assoc]

/-- Helper: overwriting the last entry with the value it already holds is
the identity. -/
theorem setLast_of_getLast (v : ℚ) : ∀ (l : List ℚ),
    l.getLast? = some v → PF.setLast l v = l
  | [], h => by simp at h
  | [a], h => by
    simp only [List.getLast?_singleton, Option.some.injEq] at h
    simp [PF.setLast, h]
  | a :: b :: t, h => by
    rw [List.getLast?_cons_cons] at h
    simp [PF.setLast, setLast_of_getLast v (b :: t) h]

/-- Helper: partial sums of nonnegative entries are nonnegative. -/
theorem cumsum_nonneg (l : List ℚ) (hl : ∀ a ∈ l, 0 ≤ a) :
    ∀ s ∈ PF.cumsum l, 0 ≤ s := by
  induction l with
  | nil => simp [PF.cumsum]
  | cons a t ih =>
    intro s hs
    rw [show PF.cumsum (a :: t)
      = a :: (PF.cumsum t).map (fun x => a + x) from rfl] at hs
    have ha := hl a (List.mem_cons_self a t)
    rcases List.mem_cons.mp hs with h | h
    · exact h ▸ ha
    · obtain ⟨y, hy, rfl⟩ := List.mem_map.mp h
      have hy0 := ih (fun c hc => hl c (List.mem_cons_of_mem a hc)) y hy
      linarith

/-- Helper: the cumulative sum of nonnegative weights is sorted. -/
theorem cumsum_pairwise (l : List ℚ) (hl : ∀ a ∈ l, 0 ≤ a) :
    (PF.cumsum l).Pairwise (· ≤ ·) := by
  induction l with
  | nil => simp [PF.cumsum]
  | cons a t ih =>
    rw [show PF.cumsum (a :: t)
      = a :: (PF.cumsum t).map (fun x => a + x) from rfl]
    refine List.pairwise_cons.mpr ⟨?_, ?_⟩
    · intro b hb
      obtain ⟨y, hy, rfl⟩ := List.mem_map.mp hb
      have hy0 := cumsum_nonneg t
        (fun c hc => hl c (List.mem_cons_of_mem a hc)) y hy
      linarith
    · rw [List.pairwise_map]
      exact (ih (fun c hc => hl c (List.mem_cons_of_mem a hc))).imp
        (fun h => by linarith)

/-- Helper: on a sorted cumulative-weight list, `searchsorted` returns the
first index whose entry is at least `v` — every earlier entry is strictly
below `v` and, when in bounds, the selected entry is at least `v`. -/
theorem searchsorted_first (l : List ℚ) (v : ℚ)
    (hs : l.Pairwise (· ≤ ·)) :
    (∀ k, k < PF.searchsorted l v → l.getD k 0 < v) ∧
    (PF.searchsorted l v < l.length →
      v ≤ l.getD (PF.searchsorted l v) 0) := by
  induction l with
  | nil =>
    refine ⟨fun k hk => ?_, fun h => ?_⟩
    · simp [PF.searchsorted] at hk
    · simp [PF.searchsorted] at h
  | cons a t ih =>
    obtain ⟨ha, hp⟩ := List.pairwise_cons.mp hs
    have iht := ih hp
    by_cases hav : a < v
    · have hss : PF.searchsorted (a :: t) v = PF.searchsorted t v + 1 := by
        simp [PF.searchsorted, List.countP_cons, hav]
      refine ⟨fun k hk => ?_, fun hlt => ?_⟩
      · rw [hss] at hk
        cases k with
        | zero => simpa using hav
        | succ k2 =>
          have hk2 : k2 < PF.searchsorted t v := Nat.lt_of_succ_lt_succ hk
          simpa using iht.1 k2 hk2
      · rw [hss] at hlt ⊢
        have hlt2 : PF.searchsorted t v < t.length := by
          simpa using Nat.lt_of_succ_lt_succ hlt
        simpa using iht.2 hlt2
    · have hz : PF.searchsorted (a :: t) v = 0 := by
        have ht0 : PF.searchsorted t v = 0 := by
          simp only [PF.searchsorted]
          rw [List.countP_eq_zero]
          intro b hb
          simp only [decide_eq_true_eq]
          intro hbv
          exact hav (lt_of_le_of_lt (ha b hb) hbv)
        simp [PF.searchsorted, List.countP_cons, hav] at ht0 ⊢
        simpa [PF.searchsorted] using ht0
      refine ⟨fun k hk => ?_, fun _ => ?_⟩
      · rw [hz] at hk
        exact absurd hk (Nat.not_lt_zero k)
      · rw [hz]
        simpa using not_lt.mp hav

/-- Helper: when the last cumulative weight is not below `v`, the selected
index is strictly within bounds. -/
theorem searchsorted_lt_length (l : List ℚ) (v g : ℚ)
    (hg : l.getLast? = some g) (hvg : ¬ g < v) :
    PF.searchsorted l v < l.length := by
  have hmem : g ∈ l := List.mem_of_getLast?_eq_some hg
  have hne : PF.searchsorted l v ≠ l.length := by
    intro he
    have hall := List.countP_eq_length.mp he g hmem
    simp only [decide_eq_true_eq] at hall
    exact hvg hall
  exact lt_of_le_of_ne (List.countP_le_length _) hne

/-- Helper: fancy indexing with all indices in bounds returns one row
per index, in order. -/
theorem index_select_all {X : Type} (x : List X) :
    ∀ (idx : List ℕ), (∀ i ∈ idx, i < x.length) →
    ∃ res, PF.index_select x idx = some res ∧ res.length = idx.length ∧
      ∀ k j, idx.get? k = some j → res.get? k = x.get? j
  | [], _ => ⟨[], rfl, rfl, by intro k j h; simp at h⟩
  | i :: t, hb => by
    have hi : i < x.length := hb i (List.mem_cons_self i t)
    obtain ⟨res, hres, hlen, hget⟩ :=
      index_select_all x t (fun j hj => hb j (List.mem_cons_of_mem i hj))
    refine ⟨x.get ⟨i, hi⟩ :: res, ?_, by simp [hlen], ?_⟩
    · simp only [PF.index_select]
      rw [List.get?_eq_get hi, hres]
    · intro k j h
      cases k with
      | zero =>
        simp only [List.get?_cons_zero, Option.some.injEq] at h
        subst h
        simp [List.get?_eq_get hi]
      | succ k2 =>
        simp only [List.get?_cons_succ] at h ⊢
        exact hget k2 j h

/-- C3: for a nonnegative weight vector `q` of length `N` summing to 1, a
particle set of size `N`, and `N` uniform draws in `[0,1)`,
`resample_particles` builds the cumulative sum of `q`, overwrites its last
entry with exactly 1, and returns exactly `N` particles, the one for draw
`r_k` being the particle at the first cumulative-weight index whose
cumulative weight is at least `r_k`. -/
theorem resample_particles_spec {X : Type} (N : ℕ) (q : List ℚ)
    (x : List X) (r : List ℚ)
    (hN : 0 < N) (hq : q.length = N) (hx : x.length = N)
    (hr : r.length = N)
    (hqnn : ∀ a ∈ q, 0 ≤ a) (hqsum : q.sum = 1)
    (hru : ∀ a ∈ r, 0 ≤ a ∧ a < 1) :
    ∃ res, PF.resample_particles q x r = some res ∧ res.length = N ∧
      ∀ k ri, r.get? k = some ri →
        res.get? k = x.get? (PF.searchsorted (PF.cumsum1 q) ri) ∧
        PF.searchsorted (PF.cumsum1 q) ri < N ∧
        ri ≤ (PF.cumsum1 q).getD (PF.searchsorted (PF.cumsum1 q) ri) 0 ∧
        ∀ j, j < PF.searchsorted (PF.cumsum1 q) ri →
          (PF.cumsum1 q).getD j 0 < ri := by
  cases q with
  | nil => rw [List.length_nil] at hq; omega
  | cons a t =>
    have hsum : a + t.sum = 1 := by simpa using hqsum
    have hlast : (PF.cumsum (a :: t)).getLast? = some 1 := by
      rw [cumsum_getLast, hsum]
    have hcs : PF.cumsum1 (a :: t) = PF.cumsum (a :: t) :=
      setLast_of_getLast 1 _ hlast
    have hsorted : (PF.cumsum1 (a :: t)).Pairwise (· ≤ ·) := by
      rw [hcs]; exact cumsum_pairwise _ hqnn
    have hlen_cs : (PF.cumsum1 (a :: t)).length = N := by
      rw [hcs, cumsum_length, hq]
    have hlast1 : (PF.cumsum1 (a :: t)).getLast? = some 1 := by
      rw [hcs]; exact hlast
    have hbound : ∀ ri ∈ r, PF.searchsorted (PF.cumsum1 (a :: t)) ri < N := by
      intro ri hri
      have h1 : ¬ (1 : ℚ) < ri := by
        have := (hru ri hri).2
        linarith
      have := searchsorted_lt_length (PF.cumsum1 (a :: t)) ri 1 hlast1 h1
      rwa [hlen_cs] at this
    have hidx : ∀ i ∈ r.map (PF.searchsorted (PF.cumsum1 (a :: t))),
        i < x.length := by
      intro i hi
      obtain ⟨ri, hri, rfl⟩ := List.mem_map.mp hi
      rw [hx]
      exact hbound ri hri
    obtain ⟨res, hres, hlen, hget⟩ := index_select_all x _ hidx
    refine ⟨res, ?_, by rw [hlen, List.length_map, hr], ?_⟩
    · simpa [PF.resample_particles] using hres
    · intro k ri hk
      have hmem : ri ∈ r := List.get?_mem hk
      have hmap : (r.map (PF.searchsorted (PF.cumsum1 (a :: t)))).get? k
          = some (PF.searchsorted (PF.cumsum1 (a :: t)) ri) := by
        rw [List.get?_map, hk]
        rfl
      refine ⟨hget k _ hmap, hbound ri hmem, ?_, ?_⟩
      · refine (searchsorted_first _ ri hsorted).2 ?_
        rw [hlen_cs]
        exact hbound ri hmem
      · exact fun j hj => (searchsorted_first _ ri hsorted).1 j hj

/-- Witness for C3 at a concrete input: two equal weights, two particles,
two uniform draws. -/
theorem resample_particles_spec_witness :
    ∃ res, PF.resample_particles [1/2, 1/2] [(10 : ℚ), 20] [1/4, 3/4]
        = some res ∧ res.length = 2 ∧
      ∀ k ri, [(1 : ℚ)/4, 3/4].get? k = some ri →
        res.get? k
            = [(10 : ℚ), 20].get?
              (PF.searchsorted (PF.cumsum1 [1/2, 1/2]) ri) ∧
        PF.searchsorted (PF.cumsum1 [1/2, 1/2]) ri < 2 ∧
        ri ≤ (PF.cumsum1 [1/2, 1/2]).getD
          (PF.searchsorted (PF.cumsum1 [1/2, 1/2]) ri) 0 ∧
        ∀ j, j < PF.searchsorted (PF.cumsum1 [1/2, 1/2]) ri →
          (PF.cumsum1 [1/2, 1/2]).getD j 0 < ri :=
  resample_particles_spec 2 [1/2, 1/2] [(10 : ℚ), 20] [1/4, 3/4]
    (by decide) rfl rfl rfl
    (by intro a ha; fin_cases ha <;> norm_num)
    (by norm_num)
    (by intro a ha; fin_cases ha <;> norm_num)

/-- C5: the posterior covariance of one `PF.forward` step equals the spec
formula `Q + (1/N)·Σ(particle_i − mean)(particle_i − mean)ᵀ` exactly, for
every resampled particle set and every `Q`. -/
theorem step_cov_eq_spec_formula (N n : ℕ)
    (xr : Fin N → Vec n) (Q : Mat n n) :
    PF.step_cov xr Q = PF.spec_posterior_cov xr Q := by
  funext j k
  simp [PF.step_cov, PF.compute_cov, PF.spec_posterior_cov,
    Finset.mul_sum, Pi.sub_apply]
